import Mathlib

/-
Verification of the FIRRTL instance graph, instance-path cache and
LowerAnnotations pass driver / wiring-problem resolver:

  * lib/Dialect/FIRRTL/FIRRTLInstanceGraph.cpp
      (InstancePathCache::getAbsolutePaths, InstancePathCache::appendInstance,
       InstancePathCache::replaceInstance, circt::firrtl::allUnder)
  * lib/Dialect/FIRRTL/Transforms/LowerAnnotations.cpp
      (getAnnotationHandler, LowerAnnotationsPass::applyAnnotation,
       LowerAnnotationsPass::runOnOperation: worklist driver, wiring-problem
       grouping, LCA computation and port planning)

Modules are numbered by `Nat`; an MLIR `InstanceOp` / `InstanceRecord` is a
record of a stable identity together with the module containing it and the
module it instantiates.  MLIR values, types and attribute payloads are
numbered opaquely.  C++ `assert` failures and out-of-bounds `ArrayRef`
accesses are embedded as `none` outcomes.
-/

set_option maxHeartbeats 1000000

/-- An instance site (`InstanceOp`): an occurrence, inside module `parent`,
of an instantiation of module `child`.  `uid` is the stable identity of the
concrete operation, so a replaced site (same modules, more result ports) is
a distinct value. -/
structure InstSite where
  uid : Nat
  parent : Nat
  child : Nat
deriving DecidableEq, Repr

/-- The instance graph: `root` is the top-level module (the circuit's main
module, the one node with no uses) and `sites` lists every instance site of
the design. -/
structure InstanceGraph where
  root : Nat
  sites : List InstSite
deriving DecidableEq, Repr

/-- `node.uses()`: every instance site that instantiates module `m`. -/
def InstanceGraph.uses (g : InstanceGraph) (m : Nat) : List InstSite :=
  g.sites.filter (fun s => decide (s.child = m))

/-- `node.noUses()`: no instance site instantiates `m`. -/
def InstanceGraph.noUses (g : InstanceGraph) (m : Nat) : Bool :=
  (g.uses m).isEmpty

/-- The acyclicity of the instance graph, expressed as a topological
numbering: an instantiating module is numbered strictly below the module it
instantiates (the root lowest).  The C++ recursion of `getAbsolutePaths`
terminates exactly because of this. -/
def TopoOrdered (g : InstanceGraph) : Prop :=
  ∀ s ∈ g.sites, s.parent < s.child

instance (g : InstanceGraph) : Decidable (TopoOrdered g) := by
  unfold TopoOrdered; infer_instance

/-- An absolute instance path (`InstancePath`), read top-level-first. -/
abbrev InstancePath := List InstSite

/-- `InstancePathCache::appendInstance`: a fresh path one element longer,
with `inst` written at the end. -/
def appendInstance (path : InstancePath) (inst : InstSite) : InstancePath :=
  path ++ [inst]

/-- The memoized cache `absolutePathsCache`: module number paired with its
computed list of absolute paths. -/
abbrev PathCache := List (Nat × List InstancePath)

/-- `absolutePathsCache.find(op)`. -/
def cacheLookup (cache : PathCache) (m : Nat) : Option (List InstancePath) :=
  (cache.find? (fun e => decide (e.1 = m))).map (fun e => e.2)

/-- The loop body of `getAbsolutePaths`: for one instance site `s` of the
current module, fetch the parent's paths (threading the cache) and append
`s` to each, accumulating into `acc`. -/
def pathStep (rec : PathCache → Nat → List InstancePath × PathCache)
    (acc : List InstancePath × PathCache) (s : InstSite) :
    List InstancePath × PathCache :=
  let pr := rec acc.2 s.parent
  (acc.1 ++ pr.1.map (fun p => appendInstance p s), pr.2)

/-- `InstancePathCache::getAbsolutePaths` with explicit cache state.  The
root check comes before the cache lookup, exactly as in the source; on a
miss the extensions of all parents' paths are accumulated over `uses` and
the result is stored in the cache.  The structural `fuel` stands for the
termination argument the C++ gets from acyclicity; `getAbsolutePaths`
instantiates it so that, on a `TopoOrdered` graph, it never runs out. -/
def getAbsolutePathsF (g : InstanceGraph) :
    Nat → PathCache → Nat → List InstancePath × PathCache
  | 0, cache, _ => ([], cache)
  | fuel+1, cache, m =>
    if m = g.root then ([[]], cache)
    else
      match cacheLookup cache m with
      | some ps => (ps, cache)
      | none =>
        let r := (g.uses m).foldl (pathStep (getAbsolutePathsF g fuel)) ([], cache)
        (r.1, (m, r.1) :: r.2)

/-- The cache's public entry point: paths of module `m`, plus the updated
cache. -/
def getAbsolutePaths (g : InstanceGraph) (cache : PathCache) (m : Nat) :
    List InstancePath × PathCache :=
  getAbsolutePathsF g (m + 1) cache m

/-- The spec's recursive definition of absolute path sets, cache-free: the
root's path set is the one empty path; any other module's is the union,
over every instance site that instantiates it, of the parent's path set
with that site appended (so a non-root module with no uses gets no paths).
Same fuel device as above. -/
def specAbsolutePathsF (g : InstanceGraph) : Nat → Nat → List InstancePath
  | 0, _ => []
  | fuel+1, m =>
    if m = g.root then [[]]
    else (g.uses m).flatMap fun s =>
      (specAbsolutePathsF g fuel s.parent).map (fun p => appendInstance p s)

/-- The spec-side path set of module `m`. -/
def specAbsolutePaths (g : InstanceGraph) (m : Nat) : List InstancePath :=
  specAbsolutePathsF g (m + 1) m

/-- Validity of a cache state: every entry holds exactly the module's
spec-side path set. -/
def CacheOK (g : InstanceGraph) (cache : PathCache) : Prop :=
  ∀ e ∈ cache, e.2 = specAbsolutePaths g e.1

/-- The per-path update of `InstancePathCache::replaceInstance`: locate the
first occurrence of `oldS` (`llvm::find`), copy the path and write `newS`
at that index. -/
def replaceFirst (oldS newS : InstSite) : InstancePath → InstancePath
  | [] => []
  | x :: xs => if x = oldS then newS :: xs else x :: replaceFirst oldS newS xs

/-- The cache-maintenance half of `InstancePathCache::replaceInstance`: an
entry none of whose paths contains `oldS` is left as it is (`continue`);
in a touched entry every path is re-emitted, paths without `oldS` copied as
they are, paths with it rebuilt with `newS` at the first occurrence. -/
def replaceInstanceCache (oldS newS : InstSite) (cache : PathCache) : PathCache :=
  cache.map fun e =>
    if ∃ p ∈ e.2, oldS ∈ p then
      (e.1, e.2.map fun p => if oldS ∈ p then replaceFirst oldS newS p else p)
    else e

/-- The insertion loop shared by `allUnder`'s seeding and its traversal: for
each record `u`, `seen.insert(u->getParent())`; when the module is new it is
also pushed.  The worklist is a stack with its top at the head (the C++
SmallVector pushes and pops at the back). -/
def pushParents (sw : List Nat × List Nat) (uses : List InstSite) :
    List Nat × List Nat :=
  uses.foldl
    (fun sw' u =>
      if u.parent ∈ sw'.1 then sw' else (u.parent :: sw'.1, u.parent :: sw'.2))
    sw

/-- The universe the `seen` list grows inside: every module pushed by the
traversal is the parent of some instance site. -/
def parentUniverse (g : InstanceGraph) : List Nat :=
  g.sites.map (fun s => s.parent)

/-- The worklist loop of `circt::firrtl::allUnder`: pop a module; if it has
no uses the root was reached without passing through `top` (which sits in
`seen` from the start and is therefore never pushed), so return false;
otherwise push the unseen parents of its uses and continue.  (The loop's
`assert(node != top)` can never fire, see `allUnder_correct`.) -/
def allUnderLoop (g : InstanceGraph) (seen worklist : List Nat) : Bool :=
  match worklist with
  | [] => true
  | node :: rest =>
    if (g.uses node).isEmpty then false
    else
      allUnderLoop g (pushParents (seen, rest) (g.uses node)).1
        (pushParents (seen, rest) (g.uses node)).2
termination_by
  ((parentUniverse g).filter (fun p => decide (p ∉ seen))).length + worklist.length
decreasing_by
  have hfilter : ∀ (P : List Nat) (p : Nat) (sn : List Nat), p ∈ P → p ∉ sn →
      (P.filter (fun x => decide (x ∉ p :: sn))).length + 1
        ≤ (P.filter (fun x => decide (x ∉ sn))).length := by
    intro P p sn
    induction P with
    | nil => intro hp _; cases hp
    | cons a t ih =>
      intro hp hns
      by_cases hap : a = p
      · subst hap
        rw [List.filter_cons_of_neg (by simp), List.filter_cons_of_pos (by simpa using hns)]
        have hmono : List.Sublist (List.filter (fun x => decide (x ∉ a :: sn)) t)
            (List.filter (fun x => decide (x ∉ sn)) t) := by
          apply List.monotone_filter_right
          intro x hx
          simp only [decide_eq_true_eq, List.mem_cons, not_or] at hx ⊢
          exact hx.2
        simpa using Nat.succ_le_succ hmono.length_le
      · have hpt : p ∈ t := by
          rcases List.mem_cons.mp hp with h | h
          · exact absurd h.symm hap
          · exact h
        by_cases has : a ∈ sn
        · rw [List.filter_cons_of_neg (by simp [List.mem_cons, has]),
            List.filter_cons_of_neg (by simp [has])]
          exact ih hpt hns
        · rw [List.filter_cons_of_pos (by simp [List.mem_cons, hap, has]),
            List.filter_cons_of_pos (by simp [has])]
          have := ih hpt hns
          simp only [List.length_cons]
          omega
  have hmeas : ∀ (us : List InstSite), (∀ u ∈ us, u.parent ∈ parentUniverse g) →
      ∀ sn wl : List Nat,
        ((parentUniverse g).filter
              (fun p => decide (p ∉ (pushParents (sn, wl) us).1))).length
            + (pushParents (sn, wl) us).2.length
          ≤ ((parentUniverse g).filter (fun p => decide (p ∉ sn))).length
            + wl.length := by
    intro us
    induction us with
    | nil => intro _ sn wl; simp [pushParents]
    | cons u t ih =>
      intro hU sn wl
      by_cases hu : u.parent ∈ sn
      · have hstep : pushParents (sn, wl) (u :: t) = pushParents (sn, wl) t := by
          simp [pushParents, hu]
        rw [hstep]
        exact ih (fun v hv => hU v (List.mem_cons_of_mem u hv)) sn wl
      · have hstep : pushParents (sn, wl) (u :: t)
            = pushParents (u.parent :: sn, u.parent :: wl) t := by
          simp [pushParents, hu]
        rw [hstep]
        have h1 := ih (fun v hv => hU v (List.mem_cons_of_mem u hv))
          (u.parent :: sn) (u.parent :: wl)
        have h2 := hfilter (parentUniverse g) u.parent sn
          (hU u (List.mem_cons_self u t)) hu
        simp only [List.length_cons] at h1 ⊢
        omega
  have hU : ∀ u ∈ g.uses node, u.parent ∈ parentUniverse g := by
    intro u hu
    exact List.mem_map_of_mem _ (List.mem_of_mem_filter hu)
  have h := hmeas (g.uses node) hU seen rest
  simp only [List.length_cons]
  omega

/-- `circt::firrtl::allUnder(nodes, top)`: seed `seen` with `top`, then with
each given record's parent module (pushing the new ones), and run the
traversal. -/
def allUnder (g : InstanceGraph) (nodes : List InstSite) (top : Nat) : Bool :=
  allUnderLoop g (pushParents ([top], []) nodes).1 (pushParents ([top], []) nodes).2

/-- An upward escape: from module `m` one can walk to parents of uses,
never passing through `top`, and reach a module with no uses (the true
root).  `allUnder` returns false exactly when some given node's parent
module escapes like this. -/
inductive Escapes (g : InstanceGraph) (top : Nat) : Nat → Prop
  | root (m : Nat) (hm : m ≠ top) (h : g.uses m = []) : Escapes g top m
  | step (m : Nat) (s : InstSite) (hm : m ≠ top) (hs : s ∈ g.uses m)
      (h : Escapes g top s.parent) : Escapes g top m

/-- A module of the closure `S` built by a completed traversal: it has uses
and all their parents stayed inside `S`. -/
def GoodIn (g : InstanceGraph) (S : List Nat) (m : Nat) : Prop :=
  g.uses m ≠ [] ∧ ∀ s ∈ g.uses m, s.parent ∈ S

/-- The LCA loop of `LowerAnnotationsPass::runOnOperation` (the wiring
resolver), by cases on the two suffixes.  The C++ loop is

    while (!sources.empty() || sinks.empty()) {
      if (sources[0] != sinks[0]) break;
      lca = sources[0].getReferencedModule(); drop both fronts; }

so with both lists empty, or with `sinks` empty while `sources` is not, the
condition holds and the front access `sources[0]` / `sinks[0]` runs past the
end of an empty ArrayRef (an assertion failure), embedded as `none`; with
`sources` empty and `sinks` not, the condition fails and the loop exits. -/
def lcaLoop (lca : Nat) :
    List InstSite → List InstSite → Option (Nat × List InstSite × List InstSite)
  | [], [] => none
  | [], k0 :: krest => some (lca, [], k0 :: krest)
  | _s0 :: _srest, [] => none
  | s0 :: srest, k0 :: krest =>
    if s0 = k0 then lcaLoop s0.child srest krest
    else some (lca, s0 :: srest, k0 :: krest)

/-- Port direction. -/
inductive Direction
  | In
  | Out
deriving DecidableEq, Repr

/-- A FIRRTL port type as the wiring resolver builds it: the source value's
base type, either plain or wrapped as `RefType` (`RefType::get(...)`). -/
inductive PType
  | plain (t : Nat)
  | ref (t : Nat)
deriving DecidableEq, Repr

/-- A wiring problem: a request to connect `sourceValue` (defined in module
`sourceModule`, of base type `sourceType`) to `sinkValue` in `sinkModule`;
`isRefType` marks a reference-typed problem and `newNameHint` names the new
ports. -/
structure WiringProblem where
  sourceValue : Nat
  sinkValue : Nat
  sourceModule : Nat
  sinkModule : Nat
  sourceType : Nat
  isRefType : Bool
  newNameHint : String
deriving DecidableEq, Repr

/-- An entry of `portsToAdd`: the pending port (name, type, direction)
tagged with its wiring-problem id. -/
structure PendingPort where
  name : String
  tpe : PType
  dir : Direction
  problemId : Nat
deriving DecidableEq, Repr

/-- The per-module modification plan `ModuleModifications`: ports to add,
the problem-id-to-value connection map (an association list, newest entry
first, i.e. map assignment is a cons) and the U-turn list. -/
structure ModuleModifications where
  portsToAdd : List PendingPort
  connectionMap : List (Nat × Nat)
  uturns : List (Nat × Nat)
deriving DecidableEq, Repr

/-- A fresh `ModuleModifications` (the DenseMap's default-constructed
entry). -/
def emptyMods : ModuleModifications := ⟨[], [], []⟩

/-- `moduleModifications`, as a total map with default entries. -/
def ModMap := Nat → ModuleModifications

/-- Update one module's entry of the modification map. -/
def updateMod (mm : ModMap) (m : Nat)
    (f : ModuleModifications → ModuleModifications) : ModMap :=
  fun k => if k = m then f (mm k) else mm k

/-- One of the two port-planning loops: for every site of a chain, append
to the referenced module's `portsToAdd` one pending port of the given
direction, typed `tpe` and named by the hint freshened in that module's
namespace, tagged with the problem id. -/
def addPortFold (freshName : Nat → String → String) (hint : String) (tpe : PType)
    (dir : Direction) (index : Nat) (mm : ModMap) (chain : List InstSite) : ModMap :=
  chain.foldl (fun acc s =>
    updateMod acc s.child fun md =>
      { md with portsToAdd := md.portsToAdd
          ++ [⟨freshName s.child hint, tpe, dir, index⟩] }) mm

/-- One iteration of the wiring-problem loop (grouping, LCA and port
planning; the later bottom-up rewrite phase is outside this model): record
the source and sink values in their modules' connection maps, fetch both
absolute path sets — the source's `assert(sourcePaths.size() == 1)` and the
sink's twin are modelled as `none` on any other size — run the LCA loop
from the root, then append one pending `Out` port per to-source chain
module and one `In` port per to-sink chain module, typed from the source
value (wrapped as a reference exactly for reference-typed problems) and
named by the problem's hint freshened in the module's namespace.
`freshName` stands for the external `state.getNamespace(mod).newName`. -/
def processWiringProblem (g : InstanceGraph) (freshName : Nat → String → String)
    (cache : PathCache) (index : Nat) (p : WiringProblem) (mm : ModMap) :
    Option (ModMap × PathCache × Nat × List InstSite × List InstSite) :=
  let mm1 := updateMod mm p.sourceModule fun md =>
    { md with connectionMap := (index, p.sourceValue) :: md.connectionMap }
  let mm2 := updateMod mm1 p.sinkModule fun md =>
    { md with connectionMap := (index, p.sinkValue) :: md.connectionMap }
  let r1 := getAbsolutePaths g cache p.sourceModule
  match r1.1 with
  | [sourcePath] =>
    let r2 := getAbsolutePaths g r1.2 p.sinkModule
    match r2.1 with
    | [sinkPath] =>
      match lcaLoop g.root sourcePath sinkPath with
      | none => none
      | some (lca, sources, sinks) =>
        let tpe := if p.isRefType then PType.ref p.sourceType
          else PType.plain p.sourceType
        let mm3 := addPortFold freshName p.newNameHint tpe Direction.Out index
          mm2 sources
        let mm4 := addPortFold freshName p.newNameHint tpe Direction.In index
          mm3 sinks
        some (mm4, r2.2, lca, sources, sinks)
    | _ => none
  | _ => none

/-- A raw annotation (`DictionaryAttr`): its optional `class` entry, its
optional `target` entry and the rest of its content, numbered opaquely. -/
structure Anno where
  classField : Option String
  targetField : Option String
  payload : Nat
deriving DecidableEq, Repr

/-- A resolved target (`AnnoPathValue`): the operation it refers to and
whether the resolution path is local (`instances.empty()`). -/
structure AnnoTargetVal where
  ref : Nat
  isLocal : Bool
deriving DecidableEq, Repr

/-- The IR state the appliers mutate: the circuit operation and the list of
annotation attachments performed so far (`addAnnotation` setAttr effects,
newest first). -/
structure ApplyCtx where
  circuitRef : Nat
  attachments : List (Nat × Nat)
deriving DecidableEq, Repr

/-- A `(resolver, applier)` table entry (`AnnoRecord`).  Errors are `none`;
resolution and application read and rewrite the `ApplyCtx`. -/
structure AnnoRecord where
  resolver : Anno → ApplyCtx → Option AnnoTargetVal
  applier : AnnoTargetVal → Anno → ApplyCtx → Option ApplyCtx

/-- `tryResolve`: resolve the `target` field through the standard path
resolution when present (external target-string parsing, a parameter
here), else resolve to the circuit itself. -/
def tryResolve (extResolve : String → ApplyCtx → Option AnnoTargetVal)
    (anno : Anno) (st : ApplyCtx) : Option AnnoTargetVal :=
  match anno.targetField with
  | some t => extResolve t st
  | none => some ⟨st.circuitRef, true⟩

/-- `applyWithoutTargetImpl`: reject a non-local target unless allowed,
else attach the annotation's payload (its content minus the target field)
to the resolved target operation. -/
def applyWithoutTargetImpl (allowNonLocal : Bool) (tgt : AnnoTargetVal)
    (anno : Anno) (st : ApplyCtx) : Option ApplyCtx :=
  if !allowNonLocal && !tgt.isLocal then none
  else some { st with attachments := (tgt.ref, anno.payload) :: st.attachments }

/-- The driving table's entry for the fallback class:
`{"circt.missing", {tryResolve, applyWithoutTarget<true>}}`. -/
def missingAnnoRecord (extResolve : String → ApplyCtx → Option AnnoTargetVal) :
    AnnoRecord :=
  ⟨tryResolve extResolve, applyWithoutTargetImpl true⟩

/-- `getAnnotationHandler`: look the class string up in the static table;
on a miss, optionally fall back to the `"circt.missing"` record. -/
def getAnnotationHandler (records : List (String × AnnoRecord)) (annoStr : String)
    (ignoreUnhandledAnno : Bool) : Option AnnoRecord :=
  match records.find? (fun e => decide (e.1 = annoStr)) with
  | some e => some e.2
  | none =>
    if ignoreUnhandledAnno then
      (records.find? (fun e => decide (e.1 = "circt.missing"))).map (fun e => e.2)
    else none

/-- Resolve, then apply, one table record (the tail of
`LowerAnnotationsPass::applyAnnotation`). -/
def runRecord (record : AnnoRecord) (anno : Anno) (st : ApplyCtx) :
    Option ApplyCtx :=
  match record.resolver anno st with
  | none => none
  | some tgt => record.applier tgt anno st

/-- `LowerAnnotationsPass::applyAnnotation` (the C++ name ends in a
reserved token, hence `applyAnno`): read the class field (an
absent class is an error unless `ignoreClasslessAnno` substitutes
`"circt.missing"`), look the handler up strictly, on a miss fail unless
`ignoreUnhandledAnno` requests the fallback handler, then resolve and
apply. -/
def applyAnno (records : List (String × AnnoRecord))
    (ignoreUnhandledAnno ignoreClasslessAnno : Bool)
    (anno : Anno) (st : ApplyCtx) : Option ApplyCtx :=
  match
    (match anno.classField with
     | some c => some c
     | none => if ignoreClasslessAnno then some "circt.missing" else none) with
  | none => none
  | some annoClassVal =>
    match getAnnotationHandler records annoClassVal false with
    | some record => runRecord record anno st
    | none =>
      if ignoreUnhandledAnno then
        match getAnnotationHandler records annoClassVal ignoreUnhandledAnno with
        | some record => runRecord record anno st
        | none => none
      else none

/-- `worklistAttrs.push_back`. -/
def pushBack {α : Type} (wl : List α) (a : α) : List α := wl ++ [a]

/-- The worklist seeding loop: push every raw annotation in reverse order,
so that the vector's back — popped first — is the first input
annotation. -/
def seedWorklist {α : Type} (annos : List α) : List α :=
  annos.reverse.foldl pushBack []

/-- The driver loop: pop the worklist's back, apply the annotation (the
abstract `applyOne` returns success, the new state and whatever the applier
enqueued through `addToWorklist`), push the enqueued annotations, count
failures and continue.  Returns the final state, `numFailures` and the
processed annotations in processing order.  The structural `fuel` stands
for the C++ loop's termination (appliers may enqueue, so the worklist can
grow); every theorem below instantiates it high enough that it never runs
out. -/
def processLoop {σ α : Type} (applyOne : α → σ → Bool × σ × List α) :
    Nat → List α → σ → σ × Nat × List α
  | 0, _, st => (st, 0, [])
  | fuel+1, wl, st =>
    match wl.getLast? with
    | none => (st, 0, [])
    | some attr =>
      let r := applyOne attr st
      let rest := processLoop applyOne fuel (r.2.2.foldl pushBack wl.dropLast) r.2.1
      (rest.1, (if r.1 then 0 else 1) + rest.2.1, attr :: rest.2.2)

/-- The reference run: apply the annotations one after the other, first to
last, counting failures. -/
def runSequential {σ α : Type} (applyOne : α → σ → Bool × σ × List α) :
    List α → σ → σ × Nat
  | [], st => (st, 0)
  | a :: rest, st =>
    let r := applyOne a st
    let rr := runSequential applyOne rest r.2.1
    (rr.1, (if r.1 then 0 else 1) + rr.2)

/-- The per-annotation outcomes of the sequential run (true = applied). -/
def runOutcomes {σ α : Type} (applyOne : α → σ → Bool × σ × List α) :
    List α → σ → List Bool
  | [], _ => []
  | a :: rest, st => (applyOne a st).1 :: runOutcomes applyOne rest (applyOne a st).2.1

/-- The pass driver around the loop (`runOnOperation`): seed the worklist
from the raw annotations, run the loop, and signal pass failure exactly
when `numFailures` is nonzero. -/
def runLowerAnnotations {σ α : Type} (applyOne : α → σ → Bool × σ × List α)
    (fuel : Nat) (annos : List α) (st : σ) : σ × Nat × List α × Bool :=
  let r := processLoop applyOne fuel (seedWorklist annos) st
  (r.1, r.2.1, r.2.2, decide (r.2.1 ≠ 0))

theorem flatMap_congr_of_mem {α β : Type} {l : List α} {f₁ f₂ : α → List β}
    (h : ∀ a ∈ l, f₁ a = f₂ a) : l.flatMap f₁ = l.flatMap f₂ := by
  induction l with
  | nil => rfl
  | cons a t ih =>
    simp only [List.flatMap_cons]
    rw [h a (List.mem_cons_self a t), ih (fun b hb => h b (List.mem_cons_of_mem a hb))]

theorem uses_parent_lt (g : InstanceGraph) (hwf : TopoOrdered g) {m : Nat}
    {s : InstSite} (hs : s ∈ g.uses m) : s.parent < m := by
  have h1 : s ∈ g.sites ∧ decide (s.child = m) = true := List.mem_filter.mp hs
  have h2 : s.child = m := of_decide_eq_true h1.2
  have h3 := hwf s h1.1
  omega

theorem specAbsolutePathsF_eq (g : InstanceGraph) (hwf : TopoOrdered g) :
    ∀ m fuel, m < fuel → specAbsolutePathsF g fuel m = specAbsolutePaths g m := by
  intro m
  induction m using Nat.strong_induction_on with
  | _ m ih =>
    intro fuel hf
    obtain ⟨f, rfl⟩ : ∃ f, fuel = f + 1 := ⟨fuel - 1, by omega⟩
    show specAbsolutePathsF g (f + 1) m = specAbsolutePaths g m
    unfold specAbsolutePaths
    simp only [specAbsolutePathsF]
    by_cases hr : m = g.root
    · simp [hr]
    · simp only [if_neg hr]
      apply flatMap_congr_of_mem
      intro s hs
      have hlt : s.parent < m := uses_parent_lt g hwf hs
      rw [ih s.parent hlt f (by omega), ih s.parent hlt m (by omega)]

theorem cacheLookup_ok (g : InstanceGraph) {cache : PathCache} (hc : CacheOK g cache)
    {m : Nat} {ps : List InstancePath} (h : cacheLookup cache m = some ps) :
    ps = specAbsolutePaths g m := by
  unfold cacheLookup at h
  cases hfind : cache.find? (fun e => decide (e.1 = m)) with
  | none => rw [hfind] at h; cases h
  | some e =>
    rw [hfind] at h
    have hmem : e ∈ cache := List.mem_of_find?_eq_some hfind
    have hkey' := List.find?_some hfind
    have hkey : e.1 = m := of_decide_eq_true hkey'
    have he2 : e.2 = ps := by simpa using h
    rw [← he2, hc e hmem, hkey]

theorem foldl_pathStep_spec (g : InstanceGraph)
    (rec : PathCache → Nat → List InstancePath × PathCache) :
    ∀ uses : List InstSite,
      (∀ s ∈ uses, ∀ cache, CacheOK g cache →
        (rec cache s.parent).1 = specAbsolutePaths g s.parent ∧
        CacheOK g (rec cache s.parent).2) →
      ∀ (acc : List InstancePath) (cache : PathCache), CacheOK g cache →
        (uses.foldl (pathStep rec) (acc, cache)).1
            = acc ++ uses.flatMap
                (fun s => (specAbsolutePaths g s.parent).map
                  (fun p => appendInstance p s)) ∧
        CacheOK g (uses.foldl (pathStep rec) (acc, cache)).2 := by
  intro uses
  induction uses with
  | nil => intro _ acc cache hc; exact ⟨by simp, hc⟩
  | cons s t ih =>
    intro hrec acc cache hc
    have hs := hrec s (List.mem_cons_self s t) cache hc
    simp only [List.foldl_cons]
    have hstep : pathStep rec (acc, cache) s
        = (acc ++ ((rec cache s.parent).1.map (fun p => appendInstance p s)),
            (rec cache s.parent).2) := rfl
    rw [hstep]
    rcases ih (fun v hv => hrec v (List.mem_cons_of_mem s hv))
      (acc ++ ((rec cache s.parent).1.map (fun p => appendInstance p s)))
      (rec cache s.parent).2 hs.2 with ⟨h1, h2⟩
    refine ⟨?_, h2⟩
    rw [h1, hs.1, List.flatMap_cons, List.append_assoc]

theorem getAbsolutePathsF_spec (g : InstanceGraph) (hwf : TopoOrdered g) :
    ∀ m fuel, m < fuel → ∀ cache, CacheOK g cache →
      (getAbsolutePathsF g fuel cache m).1 = specAbsolutePaths g m ∧
      CacheOK g (getAbsolutePathsF g fuel cache m).2 := by
  intro m
  induction m using Nat.strong_induction_on with
  | _ m ih =>
    intro fuel hf cache hc
    obtain ⟨f, rfl⟩ : ∃ f, fuel = f + 1 := ⟨fuel - 1, by omega⟩
    simp only [getAbsolutePathsF]
    by_cases hr : m = g.root
    · simp only [if_pos hr]
      refine ⟨?_, hc⟩
      unfold specAbsolutePaths
      simp [specAbsolutePathsF, hr]
    · simp only [if_neg hr]
      cases hl : cacheLookup cache m with
      | some ps => exact ⟨cacheLookup_ok g hc hl, hc⟩
      | none =>
        have hrec : ∀ s ∈ g.uses m, ∀ c, CacheOK g c →
            (getAbsolutePathsF g f c s.parent).1 = specAbsolutePaths g s.parent ∧
            CacheOK g (getAbsolutePathsF g f c s.parent).2 := by
          intro s hs c hcc
          have hlt : s.parent < m := uses_parent_lt g hwf hs
          exact ih s.parent hlt f (by omega) c hcc
        have hfold := foldl_pathStep_spec g (getAbsolutePathsF g f) (g.uses m)
          hrec [] cache hc
        have hspecm : specAbsolutePaths g m
            = (g.uses m).flatMap (fun s =>
                (specAbsolutePaths g s.parent).map (fun p => appendInstance p s)) := by
          show specAbsolutePathsF g (m + 1) m = _
          simp only [specAbsolutePathsF, if_neg hr]
          apply flatMap_congr_of_mem
          intro s hs
          rw [specAbsolutePathsF_eq g hwf s.parent m (uses_parent_lt g hwf hs)]
        have hfst : ((g.uses m).foldl (pathStep (getAbsolutePathsF g f)) ([], cache)).1
            = specAbsolutePaths g m := by
          rw [hfold.1, hspecm]; simp
        refine ⟨hfst, ?_⟩
        intro e he
        rcases List.mem_cons.mp he with h | h
        · rw [h]; exact hfst.symm ▸ rfl
        · exact hfold.2 e h

/-- C1: on an acyclic instance graph and a valid cache state,
`getAbsolutePaths` returns, for the top-level (root) module, exactly one
path — the empty path — and for every other module exactly the union, over
every instance site that instantiates it, of the parent module's absolute
paths each extended by appending that site; in particular a non-root module
with zero uses gets the empty set of paths
(`(g.uses m).flatMap` of nothing). -/
theorem getAbsolutePaths_correct (g : InstanceGraph) (hwf : TopoOrdered g)
    (cache : PathCache) (hc : CacheOK g cache) (m : Nat) :
    (getAbsolutePaths g cache m).1 = specAbsolutePaths g m ∧
    specAbsolutePaths g m =
      (if m = g.root then [[]]
       else (g.uses m).flatMap fun s =>
         (specAbsolutePaths g s.parent).map (fun p => appendInstance p s)) := by
  constructor
  · exact (getAbsolutePathsF_spec g hwf m (m + 1) (Nat.lt_succ_self m) cache hc).1
  · by_cases hr : m = g.root
    · rw [if_pos hr]
      show specAbsolutePathsF g (m + 1) m = _
      simp [specAbsolutePathsF, hr]
    · rw [if_neg hr]
      show specAbsolutePathsF g (m + 1) m = _
      simp only [specAbsolutePathsF, if_neg hr]
      apply flatMap_congr_of_mem
      intro s hs
      rw [specAbsolutePathsF_eq g hwf s.parent m (uses_parent_lt g hwf hs)]

/-- C1 witness: the chain root -> 1 -> 2 with an empty cache. -/
theorem getAbsolutePaths_correct_witness :
    (getAbsolutePaths ⟨0, [⟨1, 0, 1⟩, ⟨2, 1, 2⟩]⟩ [] 2).1
        = specAbsolutePaths ⟨0, [⟨1, 0, 1⟩, ⟨2, 1, 2⟩]⟩ 2 ∧
    specAbsolutePaths ⟨0, [⟨1, 0, 1⟩, ⟨2, 1, 2⟩]⟩ 2
        = (if 2 = InstanceGraph.root ⟨0, [⟨1, 0, 1⟩, ⟨2, 1, 2⟩]⟩ then [[]]
           else (InstanceGraph.uses ⟨0, [⟨1, 0, 1⟩, ⟨2, 1, 2⟩]⟩ 2).flatMap fun s =>
             (specAbsolutePaths ⟨0, [⟨1, 0, 1⟩, ⟨2, 1, 2⟩]⟩ s.parent).map
               (fun p => appendInstance p s)) :=
  getAbsolutePaths_correct ⟨0, [⟨1, 0, 1⟩, ⟨2, 1, 2⟩]⟩ (by decide) []
    (by intro e he; cases he) 2

theorem replaceFirst_of_not_mem {oldS newS : InstSite} {p : InstancePath}
    (h : oldS ∉ p) : replaceFirst oldS newS p = p := by
  induction p with
  | nil => rfl
  | cons x xs ih =>
    simp only [List.mem_cons, not_or] at h
    rw [replaceFirst, if_neg (fun hx => h.1 hx.symm), ih h.2]

theorem replaceFirst_length (oldS newS : InstSite) (p : InstancePath) :
    (replaceFirst oldS newS p).length = p.length := by
  induction p with
  | nil => rfl
  | cons x xs ih =>
    rw [replaceFirst]
    by_cases hx : x = oldS
    · simp [hx]
    · simp [hx, ih]

theorem replaceFirst_spec {oldS newS : InstSite} {p : InstancePath}
    (h : oldS ∈ p) :
    ∃ i : Fin p.length, p.get i = oldS ∧
      replaceFirst oldS newS p = p.set i newS := by
  induction p with
  | nil => cases h
  | cons x xs ih =>
    by_cases hx : x = oldS
    · refine ⟨⟨0, by simp⟩, by simpa using hx, ?_⟩
      rw [replaceFirst, if_pos hx]
      rfl
    · have hxs : oldS ∈ xs := by
        rcases List.mem_cons.mp h with h' | h'
        · exact absurd h'.symm hx
        · exact h'
      obtain ⟨i, hget, hrep⟩ := ih hxs
      refine ⟨⟨i.val + 1, Nat.succ_lt_succ i.isLt⟩, by simpa using hget, ?_⟩
      rw [replaceFirst, if_neg hx, hrep]
      rfl

theorem zip_self_map {α : Type} (l : List α) :
    l.zip l = l.map (fun x => (x, x)) := by
  induction l with
  | nil => rfl
  | cons a t ih => simp [List.zip_cons_cons, ih]

theorem zip_map_self {α β : Type} (l : List α) (f : α → β) :
    l.zip (l.map f) = l.map (fun x => (x, f x)) := by
  induction l with
  | nil => rfl
  | cons a t ih => simp [List.zip_cons_cons, ih]

/-- C2: after the cache-maintenance half of `replaceInstance(old, new)`,
entry for entry (the zip pairs the old cache with the new one): keys are
unchanged, an entry none of whose paths contains `old` is untouched, path
counts are preserved, and path for path every cached path not containing
`old` is value-unchanged while every path containing `old` becomes the
equal-length path with `new` substituted at a position where `old` stood
(the first one).  Paths are immutable values in this model, matching the
source's fresh-array discipline. -/
theorem replaceInstance_cache_correct (oldS newS : InstSite) (cache : PathCache) :
    (replaceInstanceCache oldS newS cache).length = cache.length ∧
    ∀ pr ∈ cache.zip (replaceInstanceCache oldS newS cache),
      pr.2.1 = pr.1.1 ∧
      ((∀ p ∈ pr.1.2, oldS ∉ p) → pr.2 = pr.1) ∧
      pr.2.2.length = pr.1.2.length ∧
      ∀ q ∈ pr.1.2.zip pr.2.2,
        (oldS ∉ q.1 → q.2 = q.1) ∧
        (oldS ∈ q.1 → ∃ i : Fin q.1.length, q.1.get i = oldS ∧
          q.2 = q.1.set i newS) := by
  constructor
  · simp [replaceInstanceCache]
  · intro pr hpr
    rw [replaceInstanceCache, zip_map_self] at hpr
    obtain ⟨e, he, hpr⟩ := List.mem_map.mp hpr
    subst hpr
    by_cases hex : ∃ p ∈ e.2, oldS ∈ p
    · simp only [if_pos hex]
      refine ⟨by simp, ?_, by simp, ?_⟩
      · intro hnone
        obtain ⟨p, hp, hop⟩ := hex
        exact absurd hop (hnone p hp)
      · intro q hq
        rw [zip_map_self] at hq
        obtain ⟨p, hp, hq⟩ := List.mem_map.mp hq
        subst hq
        constructor
        · intro hnp
          simp only [if_neg hnp]
        · intro hyp
          simp only [if_pos hyp]
          exact replaceFirst_spec hyp
    · simp only [if_neg hex]
      refine ⟨by simp, fun _ => by simp, by simp, ?_⟩
      intro q hq
      rw [zip_self_map] at hq
      obtain ⟨p, hp, hq⟩ := List.mem_map.mp hq
      subst hq
      refine ⟨fun _ => by simp, ?_⟩
      intro hyp
      exact absurd ⟨p, hp, hyp⟩ hex

theorem pushParents_cons (sw : List Nat × List Nat) (u : InstSite)
    (t : List InstSite) :
    pushParents sw (u :: t)
      = if u.parent ∈ sw.1 then pushParents sw t
        else pushParents (u.parent :: sw.1, u.parent :: sw.2) t := by
  by_cases hu : u.parent ∈ sw.1
  · rw [if_pos hu]; simp [pushParents, hu]
  · rw [if_neg hu]; simp [pushParents, hu]

theorem pushParents_seen_mono :
    ∀ (us : List InstSite) (sw : List Nat × List Nat) (x : Nat),
      x ∈ sw.1 → x ∈ (pushParents sw us).1 := by
  intro us
  induction us with
  | nil => intro sw x hx; exact hx
  | cons u t ih =>
    intro sw x hx
    rw [pushParents_cons]
    by_cases hu : u.parent ∈ sw.1
    · rw [if_pos hu]; exact ih sw x hx
    · rw [if_neg hu]; exact ih _ x (List.mem_cons_of_mem _ hx)

theorem pushParents_wl_mono :
    ∀ (us : List InstSite) (sw : List Nat × List Nat) (x : Nat),
      x ∈ sw.2 → x ∈ (pushParents sw us).2 := by
  intro us
  induction us with
  | nil => intro sw x hx; exact hx
  | cons u t ih =>
    intro sw x hx
    rw [pushParents_cons]
    by_cases hu : u.parent ∈ sw.1
    · rw [if_pos hu]; exact ih sw x hx
    · rw [if_neg hu]; exact ih _ x (List.mem_cons_of_mem _ hx)

theorem pushParents_wl_origin :
    ∀ (us : List InstSite) (sw : List Nat × List Nat) (x : Nat),
      x ∈ (pushParents sw us).2 →
      x ∈ sw.2 ∨ ∃ u ∈ us, x = u.parent ∧ x ∉ sw.1 := by
  intro us
  induction us with
  | nil => intro sw x hx; exact Or.inl hx
  | cons u t ih =>
    intro sw x hx
    rw [pushParents_cons] at hx
    by_cases hu : u.parent ∈ sw.1
    · rw [if_pos hu] at hx
      rcases ih sw x hx with h | ⟨v, hv, hxv, hnx⟩
      · exact Or.inl h
      · exact Or.inr ⟨v, List.mem_cons_of_mem u hv, hxv, hnx⟩
    · rw [if_neg hu] at hx
      rcases ih _ x hx with h | ⟨v, hv, hxv, hnx⟩
      · rcases List.mem_cons.mp h with h' | h'
        · exact Or.inr ⟨u, List.mem_cons_self u t, h', fun hx1 => hu (h' ▸ hx1)⟩
        · exact Or.inl h'
      · exact Or.inr ⟨v, List.mem_cons_of_mem u hv, hxv,
          fun hx1 => hnx (List.mem_cons_of_mem _ hx1)⟩

theorem pushParents_seen_origin :
    ∀ (us : List InstSite) (sw : List Nat × List Nat) (x : Nat),
      x ∈ (pushParents sw us).1 → x ∈ sw.1 ∨ x ∈ (pushParents sw us).2 := by
  intro us
  induction us with
  | nil => intro sw x hx; exact Or.inl hx
  | cons u t ih =>
    intro sw x hx
    rw [pushParents_cons] at hx ⊢
    by_cases hu : u.parent ∈ sw.1
    · rw [if_pos hu] at hx ⊢; exact ih sw x hx
    · rw [if_neg hu] at hx ⊢
      rcases ih _ x hx with h | h
      · rcases List.mem_cons.mp h with h' | h'
        · subst h'
          exact Or.inr (pushParents_wl_mono t _ _ (List.mem_cons_self _ _))
        · exact Or.inl h'
      · exact Or.inr h

theorem pushParents_covers :
    ∀ (us : List InstSite) (sw : List Nat × List Nat),
      ∀ u ∈ us, u.parent ∈ (pushParents sw us).1 := by
  intro us
  induction us with
  | nil => intro sw u hu; cases hu
  | cons v t ih =>
    intro sw u hu
    rw [pushParents_cons]
    by_cases hv : v.parent ∈ sw.1
    · rw [if_pos hv]
      rcases List.mem_cons.mp hu with rfl | h
      · exact pushParents_seen_mono t sw _ hv
      · exact ih sw u h
    · rw [if_neg hv]
      rcases List.mem_cons.mp hu with rfl | h
      · exact pushParents_seen_mono t _ _ (List.mem_cons_self _ _)
      · exact ih _ u h

theorem allUnderLoop_false_sound (g : InstanceGraph) (top : Nat) :
    ∀ seen worklist, top ∈ seen → top ∉ worklist →
      allUnderLoop g seen worklist = false →
      ∃ m ∈ worklist, Escapes g top m := by
  intro seen worklist
  induction seen, worklist using allUnderLoop.induct g with
  | case1 seen =>
    intro _ _ hfalse
    rw [allUnderLoop] at hfalse
    cases hfalse
  | case2 seen node rest hempty =>
    intro _ hnotop _
    refine ⟨node, List.mem_cons_self node rest, Escapes.root node ?_ ?_⟩
    · exact fun h => hnotop (h ▸ List.mem_cons_self node rest)
    · exact List.isEmpty_iff.mp hempty
  | case3 seen node rest hne ih =>
    intro htop hnotop hfalse
    rw [allUnderLoop, if_neg hne] at hfalse
    have htop' : top ∈ (pushParents (seen, rest) (g.uses node)).1 :=
      pushParents_seen_mono _ _ _ htop
    have hnotop' : top ∉ (pushParents (seen, rest) (g.uses node)).2 := by
      intro hx
      rcases pushParents_wl_origin _ _ _ hx with h | ⟨v, _, hxv, hnx⟩
      · exact hnotop (List.mem_cons_of_mem node h)
      · exact hnx htop
    obtain ⟨m, hm, hesc⟩ := ih htop' hnotop' hfalse
    rcases pushParents_wl_origin _ _ _ hm with h | ⟨v, hv, rfl, _⟩
    · exact ⟨m, List.mem_cons_of_mem node h, hesc⟩
    · refine ⟨node, List.mem_cons_self node rest, Escapes.step node v ?_ hv hesc⟩
      exact fun h => hnotop (h ▸ List.mem_cons_self node rest)

theorem allUnderLoop_true_closure (g : InstanceGraph) (top : Nat) :
    ∀ seen worklist,
      (∀ m ∈ seen, m = top ∨ m ∈ worklist ∨ GoodIn g seen m) →
      allUnderLoop g seen worklist = true →
      ∃ S : List Nat, (∀ x ∈ seen, x ∈ S) ∧
        (∀ m ∈ S, m = top ∨ GoodIn g S m) := by
  intro seen worklist
  induction seen, worklist using allUnderLoop.induct g with
  | case1 seen =>
    intro hy _
    refine ⟨seen, fun x hx => hx, ?_⟩
    intro m hm
    rcases hy m hm with h | h | h
    · exact Or.inl h
    · cases h
    · exact Or.inr h
  | case2 seen node rest hempty =>
    intro _ htrue
    rw [allUnderLoop, if_pos hempty] at htrue
    cases htrue
  | case3 seen node rest hne ih =>
    intro hy htrue
    rw [allUnderLoop, if_neg hne] at htrue
    have hy' : ∀ m ∈ (pushParents (seen, rest) (g.uses node)).1,
        m = top ∨ m ∈ (pushParents (seen, rest) (g.uses node)).2 ∨
          GoodIn g (pushParents (seen, rest) (g.uses node)).1 m := by
      intro m hm
      rcases pushParents_seen_origin _ _ _ hm with hsn | hwl
      · rcases hy m hsn with h | h | h
        · exact Or.inl h
        · rcases List.mem_cons.mp h with rfl | hrest
          · refine Or.inr (Or.inr ⟨?_, ?_⟩)
            · exact fun hnil => hne (by rw [hnil]; rfl)
            · intro s hs
              exact pushParents_covers _ _ s hs
          · exact Or.inr (Or.inl (pushParents_wl_mono _ _ _ hrest))
        · refine Or.inr (Or.inr ⟨h.1, fun s hs => ?_⟩)
          exact pushParents_seen_mono _ _ _ (h.2 s hs)
      · exact Or.inr (Or.inl hwl)
    obtain ⟨S, hsub, hclosed⟩ := ih hy' htrue
    exact ⟨S, fun x hx => hsub x (pushParents_seen_mono _ _ _ hx), hclosed⟩

theorem closed_no_escape (g : InstanceGraph) (top : Nat) (S : List Nat)
    (hS : ∀ m ∈ S, m = top ∨ GoodIn g S m) :
    ∀ m ∈ S, ¬ Escapes g top m := by
  intro m hm hesc
  revert hm
  induction hesc with
  | root m' hm' huses =>
    intro hmem
    rcases hS m' hmem with h | h
    · exact hm' h
    · exact h.1 huses
  | step m' s hm' hs _ ih =>
    intro hmem
    rcases hS m' hmem with h | h
    · exact hm' h
    · exact ih (h.2 s hs)

/-- C5: `allUnder(nodes, top)` returns true exactly when no given node's
parent module can escape: every upward walk (repeatedly moving to the
parent module of a use) avoiding `top` never reaches a module with no uses
— i.e. every path from every given node up to the true root passes through
`top` first; whenever some traversal would reach the no-uses root while
bypassing `top`, the result is false. -/
theorem allUnder_correct (g : InstanceGraph) (nodes : List InstSite) (top : Nat) :
    allUnder g nodes top = true ↔ ∀ n ∈ nodes, ¬ Escapes g top n.parent := by
  have htop : top ∈ (pushParents ([top], []) nodes).1 :=
    pushParents_seen_mono _ _ _ (List.mem_singleton.mpr rfl)
  have hnotop : top ∉ (pushParents ([top], []) nodes).2 := by
    intro hx
    rcases pushParents_wl_origin _ _ _ hx with h | ⟨v, _, _, hnx⟩
    · cases h
    · exact hnx (List.mem_singleton.mpr rfl)
  constructor
  · intro htrue n hn
    have hy : ∀ m ∈ (pushParents ([top], []) nodes).1,
        m = top ∨ m ∈ (pushParents ([top], []) nodes).2 ∨
          GoodIn g (pushParents ([top], []) nodes).1 m := by
      intro m hm
      rcases pushParents_seen_origin _ _ _ hm with h | h
      · exact Or.inl (List.mem_singleton.mp h)
      · exact Or.inr (Or.inl h)
    obtain ⟨S, hsub, hclosed⟩ := allUnderLoop_true_closure g top _ _ hy htrue
    have hpin : n.parent ∈ (pushParents ([top], []) nodes).1 :=
      pushParents_covers _ _ n hn
    exact closed_no_escape g top S hclosed n.parent (hsub _ hpin)
  · intro hnone
    cases hval : allUnder g nodes top with
    | true => rfl
    | false =>
      exfalso
      obtain ⟨m, hmwl, hesc⟩ :=
        allUnderLoop_false_sound g top _ _ htop hnotop hval
      rcases pushParents_wl_origin _ _ _ hmwl with h | ⟨u, hu, rfl, _⟩
      · cases h
      · exact hnone u hu hesc

/-- C10: `allUnder` on an empty node list is true, and a given node whose
parent module is `top` itself contributes nothing: filtering such nodes out
leaves the result unchanged, so they can never cause a false result. -/
theorem allUnder_vacuous (g : InstanceGraph) (top : Nat) :
    allUnder g [] top = true ∧
    ∀ nodes : List InstSite,
      allUnder g nodes top
        = allUnder g (nodes.filter (fun n => decide (n.parent ≠ top))) top := by
  constructor
  · show allUnderLoop g [top] [] = true
    rw [allUnderLoop]
  · intro nodes
    have hfold : ∀ (ns : List InstSite) (sw : List Nat × List Nat), top ∈ sw.1 →
        pushParents sw ns
          = pushParents sw (ns.filter (fun n => decide (n.parent ≠ top))) := by
      intro ns
      induction ns with
      | nil => intro sw _; rfl
      | cons u t ih =>
        intro sw htop
        by_cases hu : u.parent = top
        · rw [List.filter_cons_of_neg (by simp [hu]), pushParents_cons,
            if_pos (hu ▸ htop)]
          exact ih sw htop
        · rw [List.filter_cons_of_pos (by simp [hu]), pushParents_cons,
            pushParents_cons]
          by_cases hmem : u.parent ∈ sw.1
          · rw [if_pos hmem, if_pos hmem]
            exact ih sw htop
          · rw [if_neg hmem, if_neg hmem]
            exact ih _ (List.mem_cons_of_mem _ htop)
    rw [allUnder, allUnder, hfold nodes ([top], []) (List.mem_singleton.mpr rfl)]

/-- C3 (evaluating the code at its failure points): on the spec's example,
paths `[s1,s2,s3]` and `[s1,s2,s4]`, the loop does compute the LCA as the
module instantiated by `s2` with suffix chains `[s3]` / `[s4]`; but with
both paths empty (source and sink both in the root module), or with the
sink path a proper strict prefix of the source path, the condition
`!sources.empty() || sinks.empty()` still enters the loop and the front
access on an exhausted path runs out of bounds (`none`) instead of
returning the root / the last shared site's module as the claim states. -/
theorem lcaLoop_bug_eval :
    lcaLoop 0 [⟨1, 0, 1⟩, ⟨2, 1, 2⟩, ⟨3, 2, 3⟩] [⟨1, 0, 1⟩, ⟨2, 1, 2⟩, ⟨4, 2, 4⟩]
        = some (2, [⟨3, 2, 3⟩], [⟨4, 2, 4⟩]) ∧
    lcaLoop 0 ([] : List InstSite) [] = none ∧
    lcaLoop 0 [⟨1, 0, 1⟩] [] = none ∧
    lcaLoop 0 [⟨1, 0, 1⟩, ⟨2, 1, 2⟩] [⟨1, 0, 1⟩] = none := by
  decide

/-- C4: a wiring problem whose source or sink module resolves to zero or
several absolute paths makes the per-problem resolution fail — the
`assert(sourcePaths.size() == 1)` and its sink twin, embedded as a `none`
outcome — rather than proceed to compute an LCA or plan ports. -/
theorem processWiringProblem_scoping (g : InstanceGraph)
    (freshName : Nat → String → String) (cache : PathCache) (index : Nat)
    (p : WiringProblem) (mm : ModMap)
    (h : (getAbsolutePaths g cache p.sourceModule).1.length ≠ 1 ∨
      (getAbsolutePaths g (getAbsolutePaths g cache p.sourceModule).2
          p.sinkModule).1.length ≠ 1) :
    processWiringProblem g freshName cache index p mm = none := by
  simp only [processWiringProblem]
  rcases hsp : (getAbsolutePaths g cache p.sourceModule).1 with _ | ⟨sp, _ | ⟨sp2, spl⟩⟩
  · rfl
  · rcases hkp : (getAbsolutePaths g (getAbsolutePaths g cache p.sourceModule).2
        p.sinkModule).1 with _ | ⟨kp, _ | ⟨kp2, kpl⟩⟩
    · rfl
    · exfalso
      rcases h with h | h
      · rw [hsp] at h; simp at h
      · rw [hkp] at h; simp at h
    · rfl
  · rfl

/-- C4 witness: module 1 is instantiated twice under the root, so the
source path set has two elements and resolution fails. -/
theorem processWiringProblem_scoping_witness :
    processWiringProblem ⟨0, [⟨1, 0, 1⟩, ⟨2, 0, 1⟩]⟩ (fun _ h => h) [] 0
        ⟨10, 11, 1, 0, 7, false, "w"⟩ (fun _ => emptyMods) = none :=
  processWiringProblem_scoping ⟨0, [⟨1, 0, 1⟩, ⟨2, 0, 1⟩]⟩ (fun _ h => h) [] 0
    ⟨10, 11, 1, 0, 7, false, "w"⟩ (fun _ => emptyMods) (by decide)

theorem addPortFold_eval (freshName : Nat → String → String) (hint : String)
    (tpe : PType) (dir : Direction) (index : Nat) :
    ∀ (chain : List InstSite) (mm : ModMap),
      (chain.map (fun s => s.child)).Nodup →
      ∀ k, addPortFold freshName hint tpe dir index mm chain k
        = if k ∈ chain.map (fun s => s.child)
          then { mm k with portsToAdd := (mm k).portsToAdd
              ++ [⟨freshName k hint, tpe, dir, index⟩] }
          else mm k := by
  intro chain
  induction chain with
  | nil => intro mm _ k; simp [addPortFold]
  | cons s t ih =>
    intro mm hnd k
    simp only [List.map_cons, List.nodup_cons] at hnd
    obtain ⟨hsn, hnd'⟩ := hnd
    have hstep : addPortFold freshName hint tpe dir index mm (s :: t)
        = addPortFold freshName hint tpe dir index
            (updateMod mm s.child fun md =>
              { md with portsToAdd := md.portsToAdd
                  ++ [⟨freshName s.child hint, tpe, dir, index⟩] }) t := by
      simp [addPortFold]
    rw [hstep, ih _ hnd' k]
    by_cases hk : k = s.child
    · subst hk
      rw [if_neg hsn, if_pos (by simp)]
      simp [updateMod]
    · by_cases hkt : k ∈ t.map (fun s => s.child)
      · rw [if_pos hkt, if_pos (by simp [hkt])]
        simp [updateMod, hk]
      · rw [if_neg hkt, if_neg (by simp [hk, hkt])]
        simp [updateMod, hk]

theorem updateMod_portsToAdd_frame (mm : ModMap) (m : Nat) (v : Nat × Nat)
    (k : Nat) :
    ((updateMod mm m fun md =>
        { md with connectionMap := v :: md.connectionMap }) k).portsToAdd
      = (mm k).portsToAdd := by
  by_cases hk : k = m <;> simp [updateMod, hk]

/-- C9: when a wiring problem resolves (the LCA loop returned suffix chains
`sources` and `sinks`, whose referenced modules are distinct within each
chain), every module referenced by the to-source chain gets exactly one
output port appended to its `portsToAdd`, every module referenced by the
to-sink chain exactly one input port, and no other module's `portsToAdd`
changes; each added port carries the problem id, the hint name freshened in
that module's namespace, and the source value's type wrapped as a reference
type exactly when the problem is reference-typed. -/
theorem wiring_port_planning (g : InstanceGraph) (freshName : Nat → String → String)
    (cache : PathCache) (index : Nat) (p : WiringProblem) (mm mm' : ModMap)
    (cache' : PathCache) (lca : Nat) (sources sinks : List InstSite)
    (hrun : processWiringProblem g freshName cache index p mm
      = some (mm', cache', lca, sources, sinks))
    (hsrc : (sources.map (fun s => s.child)).Nodup)
    (hsnk : (sinks.map (fun s => s.child)).Nodup) :
    ∀ k, (mm' k).portsToAdd
      = (mm k).portsToAdd
        ++ (if k ∈ sources.map (fun s => s.child)
            then [⟨freshName k p.newNameHint,
                if p.isRefType then PType.ref p.sourceType
                  else PType.plain p.sourceType,
                Direction.Out, index⟩] else [])
        ++ (if k ∈ sinks.map (fun s => s.child)
            then [⟨freshName k p.newNameHint,
                if p.isRefType then PType.ref p.sourceType
                  else PType.plain p.sourceType,
                Direction.In, index⟩] else []) := by
  intro k
  simp only [processWiringProblem] at hrun
  split at hrun
  · split at hrun
    · split at hrun
      · cases hrun
      · simp only [Option.some.injEq, Prod.mk.injEq] at hrun
        obtain ⟨hmm, _, _, hsrc0, hsnk0⟩ := hrun
        have hsrc0' := hsrc0.symm
        have hsnk0' := hsnk0.symm
        subst hsrc0'; subst hsnk0'; subst hmm
        rw [addPortFold_eval _ _ _ _ _ sinks _ hsnk k]
        by_cases hkin : k ∈ sinks.map (fun s => s.child)
        · rw [if_pos hkin, if_pos hkin]
          show (addPortFold _ _ _ _ _ _ sources k).portsToAdd ++ _ = _
          rw [addPortFold_eval _ _ _ _ _ sources _ hsrc k]
          by_cases hkout : k ∈ sources.map (fun s => s.child)
          · rw [if_pos hkout, if_pos hkout]
            show (_ : ModuleModifications).portsToAdd ++ _ ++ _ = _
            rw [updateMod_portsToAdd_frame, updateMod_portsToAdd_frame,
              List.append_assoc]
          · rw [if_neg hkout, if_neg hkout]
            rw [updateMod_portsToAdd_frame, updateMod_portsToAdd_frame]
            simp
        · rw [if_neg hkin, if_neg hkin, List.append_nil]
          rw [addPortFold_eval _ _ _ _ _ sources _ hsrc k]
          by_cases hkout : k ∈ sources.map (fun s => s.child)
          · rw [if_pos hkout, if_pos hkout]
            rw [updateMod_portsToAdd_frame, updateMod_portsToAdd_frame]
          · rw [if_neg hkout, if_neg hkout, List.append_nil]
            rw [updateMod_portsToAdd_frame, updateMod_portsToAdd_frame]
    · cases hrun
  · cases hrun

/-- C9 witness: a diamond — root 0 instantiates 1 and 2, the source module 3
sits under 1, the sink module 4 under 2.  The LCA is the root; module 3
gains exactly the one output port named by the hint and tagged with the
problem id. -/
theorem wiring_port_planning_witness :
    ∃ mm' cache' lca sources sinks,
      processWiringProblem ⟨0, [⟨1, 0, 1⟩, ⟨2, 0, 2⟩, ⟨3, 1, 3⟩, ⟨4, 2, 4⟩]⟩
          (fun _ h => h) [] 0 ⟨10, 11, 3, 4, 7, false, "w"⟩ (fun _ => emptyMods)
        = some (mm', cache', lca, sources, sinks) ∧
      (mm' 3).portsToAdd = [⟨"w", PType.plain 7, Direction.Out, 0⟩] := by
  refine ⟨_, _, _, _, _, rfl, ?_⟩
  exact (wiring_port_planning ⟨0, [⟨1, 0, 1⟩, ⟨2, 0, 2⟩, ⟨3, 1, 3⟩, ⟨4, 2, 4⟩]⟩
    (fun _ h => h) [] 0 ⟨10, 11, 3, 4, 7, false, "w"⟩ (fun _ => emptyMods)
    _ _ _ _ _ rfl (by decide) (by decide) 3).trans (by decide)

theorem foldl_pushBack {α : Type} (l : List α) :
    ∀ acc : List α, l.foldl pushBack acc = acc ++ l := by
  induction l with
  | nil => intro acc; simp
  | cons a t ih =>
    intro acc
    rw [List.foldl_cons]
    show List.foldl pushBack (acc ++ [a]) t = _
    rw [ih]
    simp

theorem seedWorklist_eq {α : Type} (annos : List α) :
    seedWorklist annos = annos.reverse := by
  unfold seedWorklist
  rw [foldl_pushBack]
  rfl

theorem processLoop_no_enqueue {σ α : Type} (applyOne : α → σ → Bool × σ × List α)
    (hne : ∀ a st, (applyOne a st).2.2 = []) :
    ∀ (annos : List α) (fuel : Nat), annos.length ≤ fuel → ∀ st : σ,
      processLoop applyOne fuel annos.reverse st
        = ((runSequential applyOne annos st).1,
            (runSequential applyOne annos st).2, annos) := by
  intro annos
  induction annos with
  | nil =>
    intro fuel _ st
    cases fuel with
    | zero => rfl
    | succ f => simp [processLoop, runSequential]

  | cons a t ih =>
    intro fuel hlen st
    obtain ⟨f, rfl⟩ : ∃ f, fuel = f + 1 := ⟨fuel - 1, by simp at hlen; omega⟩
    rw [List.reverse_cons]
    simp only [processLoop, List.getLast?_concat, List.dropLast_concat, hne a st,
      List.foldl_nil]
    rw [ih f (by simp at hlen; omega) (applyOne a st).2.1]
    simp [runSequential]

theorem runSequential_count {σ α : Type} (applyOne : α → σ → Bool × σ × List α) :
    ∀ (annos : List α) (st : σ),
      (runSequential applyOne annos st).2
        = ((runOutcomes applyOne annos st).filter
            (fun b => decide (b = false))).length := by
  intro annos
  induction annos with
  | nil => intro st; rfl
  | cons a t ih =>
    intro st
    simp only [runSequential, runOutcomes, List.filter_cons]
    cases hb : (applyOne a st).1 <;> simp [ih, Nat.add_comm]

theorem count_ne_zero_iff_mem_false (l : List Bool) :
    (l.filter (fun b => decide (b = false))).length ≠ 0 ↔ false ∈ l := by
  constructor
  · intro h
    have hne : l.filter (fun b => decide (b = false)) ≠ [] := by
      intro hnil
      rw [hnil] at h
      exact h rfl
    obtain ⟨b, hb⟩ := List.exists_mem_of_ne_nil _ hne
    have := List.mem_filter.mp hb
    have hbf : b = false := of_decide_eq_true this.2
    exact hbf ▸ this.1
  · intro h hlen
    have : false ∈ l.filter (fun b => decide (b = false)) :=
      List.mem_filter.mpr ⟨h, by decide⟩
    rw [List.length_eq_zero] at hlen
    rw [hlen] at this
    cases this

/-- C7: with no applier enqueues, the driver of `runOnOperation` processes
every input annotation in order — a failing annotation increments
`numFailures` and does not stop the worklist — the final failure count is
the number of failing annotations of the run, and the pass signals failure
(`if (numFailures) signalPassFailure()`) exactly when at least one
annotation failed. -/
theorem batch_error_collection {σ α : Type} (applyOne : α → σ → Bool × σ × List α)
    (hne : ∀ a st, (applyOne a st).2.2 = []) (annos : List α) (st : σ) :
    runLowerAnnotations applyOne (annos.length + 1) annos st
      = ((runSequential applyOne annos st).1, (runSequential applyOne annos st).2,
          annos, decide ((runSequential applyOne annos st).2 ≠ 0)) ∧
    (runSequential applyOne annos st).2
      = ((runOutcomes applyOne annos st).filter
          (fun b => decide (b = false))).length ∧
    (decide ((runSequential applyOne annos st).2 ≠ 0) = true
      ↔ false ∈ runOutcomes applyOne annos st) := by
  refine ⟨?_, runSequential_count applyOne annos st, ?_⟩
  · unfold runLowerAnnotations
    rw [seedWorklist_eq,
      processLoop_no_enqueue applyOne hne annos (annos.length + 1) (by omega) st]
  · rw [decide_eq_true_eq, runSequential_count applyOne annos st]
    exact count_ne_zero_iff_mem_false (runOutcomes applyOne annos st)

/-- C7 witness: three annotations processed by the real `applyAnno`
model in strict mode over a table holding only the fallback class; the
second annotation's class is unknown, so it fails while the first and third
are applied. -/
theorem batch_error_collection_witness :
    runLowerAnnotations
        (fun (a : Anno) (st : ApplyCtx) =>
          match applyAnno [("circt.missing", missingAnnoRecord (fun _ _ => none))]
              false false a st with
          | some st' => (true, st', ([] : List Anno))
          | none => (false, st, []))
        (([⟨some "circt.missing", none, 1⟩, ⟨some "unknown", none, 2⟩,
            ⟨some "circt.missing", none, 3⟩] : List Anno).length + 1)
        [⟨some "circt.missing", none, 1⟩, ⟨some "unknown", none, 2⟩,
          ⟨some "circt.missing", none, 3⟩] ⟨0, []⟩
      = ((runSequential
            (fun (a : Anno) (st : ApplyCtx) =>
              match applyAnno [("circt.missing", missingAnnoRecord (fun _ _ => none))]
                  false false a st with
              | some st' => (true, st', ([] : List Anno))
              | none => (false, st, []))
            [⟨some "circt.missing", none, 1⟩, ⟨some "unknown", none, 2⟩,
              ⟨some "circt.missing", none, 3⟩] ⟨0, []⟩).1,
          (runSequential
            (fun (a : Anno) (st : ApplyCtx) =>
              match applyAnno [("circt.missing", missingAnnoRecord (fun _ _ => none))]
                  false false a st with
              | some st' => (true, st', ([] : List Anno))
              | none => (false, st, []))
            [⟨some "circt.missing", none, 1⟩, ⟨some "unknown", none, 2⟩,
              ⟨some "circt.missing", none, 3⟩] ⟨0, []⟩).2,
          [⟨some "circt.missing", none, 1⟩, ⟨some "unknown", none, 2⟩,
            ⟨some "circt.missing", none, 3⟩],
          decide ((runSequential
            (fun (a : Anno) (st : ApplyCtx) =>
              match applyAnno [("circt.missing", missingAnnoRecord (fun _ _ => none))]
                  false false a st with
              | some st' => (true, st', ([] : List Anno))
              | none => (false, st, []))
            [⟨some "circt.missing", none, 1⟩, ⟨some "unknown", none, 2⟩,
              ⟨some "circt.missing", none, 3⟩] ⟨0, []⟩).2 ≠ 0)) ∧
      (runSequential
          (fun (a : Anno) (st : ApplyCtx) =>
            match applyAnno [("circt.missing", missingAnnoRecord (fun _ _ => none))]
                false false a st with
            | some st' => (true, st', ([] : List Anno))
            | none => (false, st, []))
          [⟨some "circt.missing", none, 1⟩, ⟨some "unknown", none, 2⟩,
            ⟨some "circt.missing", none, 3⟩] ⟨0, []⟩).2
        = ((runOutcomes
            (fun (a : Anno) (st : ApplyCtx) =>
              match applyAnno [("circt.missing", missingAnnoRecord (fun _ _ => none))]
                  false false a st with
              | some st' => (true, st', ([] : List Anno))
              | none => (false, st, []))
            [⟨some "circt.missing", none, 1⟩, ⟨some "unknown", none, 2⟩,
              ⟨some "circt.missing", none, 3⟩] ⟨0, []⟩).filter
            (fun b => decide (b = false))).length ∧
      (decide ((runSequential
          (fun (a : Anno) (st : ApplyCtx) =>
            match applyAnno [("circt.missing", missingAnnoRecord (fun _ _ => none))]
                false false a st with
            | some st' => (true, st', ([] : List Anno))
            | none => (false, st, []))
          [⟨some "circt.missing", none, 1⟩, ⟨some "unknown", none, 2⟩,
            ⟨some "circt.missing", none, 3⟩] ⟨0, []⟩).2 ≠ 0) = true
        ↔ false ∈ runOutcomes
            (fun (a : Anno) (st : ApplyCtx) =>
              match applyAnno [("circt.missing", missingAnnoRecord (fun _ _ => none))]
                  false false a st with
              | some st' => (true, st', ([] : List Anno))
              | none => (false, st, []))
            [⟨some "circt.missing", none, 1⟩, ⟨some "unknown", none, 2⟩,
              ⟨some "circt.missing", none, 3⟩] ⟨0, []⟩) :=
  batch_error_collection
    (fun (a : Anno) (st : ApplyCtx) =>
      match applyAnno [("circt.missing", missingAnnoRecord (fun _ _ => none))]
          false false a st with
      | some st' => (true, st', ([] : List Anno))
      | none => (false, st, []))
    (fun a st => by
      cases h : applyAnno [("circt.missing", missingAnnoRecord (fun _ _ => none))]
          false false a st <;> simp [h])
    [⟨some "circt.missing", none, 1⟩, ⟨some "unknown", none, 2⟩,
      ⟨some "circt.missing", none, 3⟩] ⟨0, []⟩

/-- C8: the driver seeds the worklist from the input list in reverse order
(`seedWorklist annos = annos.reverse`, the vector's back being the first
input annotation) and pops one annotation at a time from the back, so with
no applier enqueues the annotations are processed exactly in their original
left-to-right order. -/
theorem worklist_order {σ α : Type} (applyOne : α → σ → Bool × σ × List α)
    (hne : ∀ a st, (applyOne a st).2.2 = []) (annos : List α) (st : σ) :
    seedWorklist annos = annos.reverse ∧
    (processLoop applyOne (annos.length + 1) (seedWorklist annos) st).2.2
      = annos := by
  refine ⟨seedWorklist_eq annos, ?_⟩
  rw [seedWorklist_eq,
    processLoop_no_enqueue applyOne hne annos (annos.length + 1) (by omega) st]

/-- C8 witness: a three-element list with an applier that never enqueues. -/
theorem worklist_order_witness :
    seedWorklist [1, 2, 3] = [1, 2, 3].reverse ∧
    (processLoop (fun (_ : Nat) (st : Unit) => (true, st, ([] : List Nat)))
        ([1, 2, 3].length + 1) (seedWorklist [1, 2, 3]) ()).2.2 = [1, 2, 3] :=
  worklist_order (fun _ st => (true, st, [])) (fun _ _ => rfl) [1, 2, 3] ()

/-- C6 counterexample: with tolerate-unknown on, an annotation whose class
has no table entry is routed to the `"circt.missing"` fallback record
(`tryResolve` + `applyWithoutTarget<true>`), which succeeds — and attaches
the annotation's payload to the circuit operation.  The design is modified
(one attachment is added), so the fallback is not a handler "that leaves
the design unmodified". -/
theorem tolerate_unknown_fallback_modifies :
    applyAnno [("circt.missing", missingAnnoRecord (fun _ _ => none))]
        true false ⟨some "unknownClass", none, 7⟩ ⟨0, []⟩
      = some ⟨0, [(0, 7)]⟩ ∧
    applyAnno [("circt.missing", missingAnnoRecord (fun _ _ => none))]
        true false ⟨some "unknownClass", none, 7⟩ ⟨0, []⟩
      ≠ some (⟨0, []⟩ : ApplyCtx) := by
  constructor
  · rfl
  · intro h
    rw [show applyAnno [("circt.missing", missingAnnoRecord (fun _ _ => none))]
        true false ⟨some "unknownClass", none, 7⟩ ⟨0, []⟩
      = some ⟨0, [(0, 7)]⟩ from rfl] at h
    simp at h

/-- C6 amended: with tolerate-unknown on, an annotation whose unknown class
misses the table is not failed by the lookup: it is routed to the table's
`"circt.missing"` fallback record, which resolves best-effort and attaches
the annotation (for a target-less annotation: to the circuit, succeeding
and thereby modifying the design rather than leaving it unmodified); with
tolerate-classless on, an annotation without a class field is treated as
the `"circt.missing"` class and handled by that same record; with the
switches off (the default), each case fails with an error. -/
theorem tolerate_switches (records : List (String × AnnoRecord))
    (extResolve : String → ApplyCtx → Option AnnoTargetVal)
    (anno : Anno) (st : ApplyCtx)
    (hmiss : records.find? (fun e => decide (e.1 = "circt.missing"))
      = some ("circt.missing", missingAnnoRecord extResolve)) :
    (∀ (icl : Bool) (c : String), anno.classField = some c →
      records.find? (fun e => decide (e.1 = c)) = none →
      applyAnno records true icl anno st
        = runRecord (missingAnnoRecord extResolve) anno st) ∧
    (∀ iua : Bool, anno.classField = none →
      applyAnno records iua true anno st
        = runRecord (missingAnnoRecord extResolve) anno st) ∧
    (∀ iua : Bool, anno.classField = none →
      applyAnno records iua false anno st = none) ∧
    (∀ (icl : Bool) (c : String), anno.classField = some c →
      records.find? (fun e => decide (e.1 = c)) = none →
      applyAnno records false icl anno st = none) ∧
    (anno.targetField = none →
      runRecord (missingAnnoRecord extResolve) anno st
        = some { st with
            attachments := (st.circuitRef, anno.payload) :: st.attachments }) := by
  refine ⟨?_, ?_, ?_, ?_, ?_⟩
  · intro icl c hc hfc
    simp [applyAnno, hc, getAnnotationHandler, hfc, hmiss]
  · intro iua hc
    simp [applyAnno, hc, getAnnotationHandler, hmiss]
  · intro iua hc
    simp [applyAnno, hc]
  · intro icl c hc hfc
    simp [applyAnno, hc, getAnnotationHandler, hfc]
  · intro ht
    simp [runRecord, missingAnnoRecord, tryResolve, ht, applyWithoutTargetImpl]

/-- C6 witness: the demo table with the fallback record only; the unknown
class routes to it and the classless cases behave as stated. -/
theorem tolerate_switches_witness :
    applyAnno [("circt.missing", missingAnnoRecord (fun _ _ => none))]
        true false ⟨some "unknownClass", none, 7⟩ ⟨0, []⟩
      = runRecord (missingAnnoRecord (fun _ _ => none))
          ⟨some "unknownClass", none, 7⟩ ⟨0, []⟩ :=
  (tolerate_switches [("circt.missing", missingAnnoRecord (fun _ _ => none))]
    (fun _ _ => none) ⟨some "unknownClass", none, 7⟩ ⟨0, []⟩ rfl).1 false
    "unknownClass" rfl rfl
